import Mathlib

/-!
Shallow embedding of `eloc_metrix.py` (an eLOC/LOC counter for a directory
tree).  Text is modelled as `List Char`; Python strings arriving from file
reads are `List Char` after universal-newline translation, so logical lines
are separated by a single newline character.  Fallible file reads are
modelled with `Option`.
-/

namespace ElocMetrix

/-- Python whitespace characters relevant to `str.strip` on source lines. -/
def pyWs (c : Char) : Bool :=
  c = ' ' || c = '\t' || c = '\n' || c = '\r' || c = '\x0b' || c = '\x0c'

/-- `str.lower` on the ASCII range, as used on extensions and language names. -/
def lowerChars (l : List Char) : List Char :=
  l.map Char.toLower

/-- `s.find(sub)` on a suffix: index of the first occurrence of `sub` in `t`,
`none` when absent (Python returns `-1`). -/
def findIn (sub : List Char) : List Char → Option Nat
  | [] => if sub.isPrefixOf ([] : List Char) then some 0 else none
  | c :: t =>
    if sub.isPrefixOf (c :: t) then some 0
    else (findIn sub t).map (· + 1)

/-- `str.splitlines` on newline-translated text: worker carrying the current
line (reversed) while consuming the remaining characters. -/
def splitlinesGo (acc : List Char) : List Char → List (List Char)
  | [] => [acc.reverse]
  | c :: rest =>
    if c = '\n' then
      acc.reverse ::
        (match rest with
         | [] => []
         | d :: rest' => splitlinesGo [] (d :: rest'))
    else splitlinesGo (c :: acc) rest

/-- `str.splitlines`: an empty string has no lines; a trailing newline does
not produce an extra empty line. -/
def splitlines : List Char → List (List Char)
  | [] => []
  | c :: t => splitlinesGo [] (c :: t)

/-- The classifier's only cross-line state (`in_block`, `current_end` in
`count_loc_eloc_for_file`). -/
structure ScanState where
  in_block : Bool
  current_end : Option (List Char)
deriving DecidableEq, Repr

/-- Both fields are reset at the start of each per-file call
(`in_block = False`, `current_end = None`). -/
def initState : ScanState := ⟨false, none⟩

/-- The earliest block-comment start among all pairs in the remaining text
(`next_starts` + stable sort by index in the source): minimal index wins and
ties keep the earlier pair in the list. -/
def nextBlockStart (t : List Char) :
    List (List Char × List Char) → Option (Nat × List Char × List Char)
  | [] => none
  | (s, e) :: rest =>
    match findIn s t, nextBlockStart t rest with
    | none, r => r
    | some i, none => some (i, s, e)
    | some i, some (j, s', e') =>
      if i ≤ j then some (i, s, e) else some (j, s', e')

/-- The inner `while i < len(s)` loop of `count_loc_eloc_for_file`, acting on
the suffix of the line that is still to be scanned.  Returns the
concatenation of the non-comment chunks (`out_chunks`) and the state after
the line.  The fuel starts at `length + 1`; every iteration of the source
loop advances past at least one character when every configured comment
token is non-empty, so the fuel is never exhausted for the syntaxes the
table produces. -/
def stripAux (pairs : List (List Char × List Char)) :
    Nat → ScanState → List Char → List Char × ScanState
  | 0, st, _ => ([], st)
  | fuel + 1, st, t =>
    if st.in_block then
      match st.current_end with
      | none => ([], st)
      | some ce =>
        match findIn ce t with
        | none => ([], st)
        | some e => stripAux pairs fuel ⟨false, none⟩ (t.drop (e + ce.length))
    else
      match nextBlockStart t pairs with
      | none => (t, st)
      | some (idx, stok, etok) =>
        let r := stripAux pairs fuel ⟨true, some etok⟩ (t.drop (idx + stok.length))
        (t.take idx ++ r.1, r.2)

/-- Remove block comments from one line, threading the scan state. -/
def stripLine (pairs : List (List Char × List Char)) (st : ScanState)
    (line : List Char) : List Char × ScanState :=
  stripAux pairs (line.length + 1) st line

/-- Per-line eLOC contribution: after block-comment stripping, a line counts
when it still has non-whitespace text and its `lstrip` does not start with
any configured line-comment prefix (the source's `for`/`else` over the
prefixes is an existence check; with no prefixes any non-blank line
counts). -/
def processLine (line_prefixes : List (List Char))
    (pairs : List (List Char × List Char)) (st : ScanState)
    (line : List Char) : Nat × ScanState :=
  let r := stripLine pairs st line
  if r.1.all pyWs then (0, r.2)
  else
    let lstripped := r.1.dropWhile pyWs
    if line_prefixes.any (fun lp => lp.isPrefixOf lstripped) then (0, r.2)
    else (1, r.2)

/-- The `for raw in lines` loop: total eLOC of the lines and the final
state. -/
def scanLines (line_prefixes : List (List Char))
    (pairs : List (List Char × List Char)) :
    ScanState → List (List Char) → Nat × ScanState
  | st, [] => (0, st)
  | st, l :: ls =>
    let r := processLine line_prefixes pairs st l
    let rest := scanLines line_prefixes pairs r.2 ls
    (r.1 + rest.1, rest.2)

/-- The classifier core of `count_loc_eloc_for_file` on decoded text:
`loc = len(lines)`, `eloc` from the scan started in the reset state. -/
def count_loc_eloc (line_prefixes : List (List Char))
    (pairs : List (List Char × List Char)) (content : List Char) : Nat × Nat :=
  let lines := splitlines content
  ((scanLines line_prefixes pairs initState lines).1, lines.length)

/-- Extensions of the common C-like languages. -/
def c_like : List (List Char) :=
  [(".c").data, (".h").data, (".cpp").data, (".cxx").data, (".cc").data,
   (".hpp").data, (".hh").data, (".hxx").data, (".java").data, (".js").data,
   (".ts").data, (".tsx").data, (".jsx").data, (".cs").data, (".go").data,
   (".swift").data, (".kt").data, (".kts").data, (".scala").data,
   (".rs").data, (".dart").data, (".css").data]

/-- Extensions whose languages use `#` line comments. -/
def hash_line : List (List Char) :=
  [(".py").data, (".sh").data, (".bash").data, (".zsh").data, (".rb").data,
   (".rake").data, (".ps1").data, (".psm1").data, (".psd1").data,
   (".toml").data, (".ini").data, (".cfg").data, (".conf").data,
   (".yml").data, (".yaml").data, (".env").data, (".mak").data, (".mk").data]

/-- `comment_syntax_for_extension`: line-comment prefixes and block-comment
pairs for a file extension; unknown extensions have no comment concept.
The source returns the prefixes as a set; only membership is ever used, so a
list models it. -/
def comment_syntax_for_extension (ext : List Char) :
    List (List Char) × List (List Char × List Char) :=
  let e := lowerChars ext
  if e ∈ c_like then ([("//").data], [((("/*").data), (("*/").data))])
  else if e ∈ hash_line then ([("#").data], [])
  else if e = (".php").data ∨ e = (".phtml").data then
    ([("//").data, ("#").data], [((("/*").data), (("*/").data))])
  else if e = (".sql").data then ([("--").data], [((("/*").data), (("*/").data))])
  else if e = (".html").data ∨ e = (".htm").data ∨ e = (".xml").data ∨
          e = (".xhtml").data then ([], [((("<!--").data), (("-->").data))])
  else if e = (".lua").data then ([("--").data], [((("--[[").data), (("]]--").data))])
  else ([], [])

/-- `language_for_extension`'s mapping table, in source order. -/
def language_map : List (List Char × List Char) :=
  [((".py").data, ("Python").data), ((".pyw").data, ("Python").data),
   ((".sh").data, ("Shell").data), ((".bash").data, ("Shell").data),
   ((".zsh").data, ("Shell").data),
   ((".ps1").data, ("PowerShell").data), ((".psm1").data, ("PowerShell").data),
   ((".psd1").data, ("PowerShell").data),
   ((".c").data, ("C").data), ((".h").data, ("C Header").data),
   ((".cpp").data, ("C++").data), ((".cc").data, ("C++").data),
   ((".cxx").data, ("C++").data),
   ((".hpp").data, ("C++ Header").data), ((".hh").data, ("C++ Header").data),
   ((".hxx").data, ("C++ Header").data),
   ((".cs").data, ("C#").data),
   ((".js").data, ("JavaScript").data), ((".mjs").data, ("JavaScript").data),
   ((".ts").data, ("TypeScript").data), ((".tsx").data, ("TypeScript (TSX)").data),
   ((".jsx").data, ("JavaScript (JSX)").data),
   ((".css").data, ("CSS").data), ((".scss").data, ("SCSS").data),
   ((".sass").data, ("Sass").data), ((".less").data, ("Less").data),
   ((".html").data, ("HTML").data), ((".htm").data, ("HTML").data),
   ((".xml").data, ("XML").data),
   ((".java").data, ("Java").data), ((".go").data, ("Go").data),
   ((".rs").data, ("Rust").data), ((".swift").data, ("Swift").data),
   ((".kt").data, ("Kotlin").data), ((".kts").data, ("Kotlin Script").data),
   ((".scala").data, ("Scala").data), ((".rb").data, ("Ruby").data),
   ((".php").data, ("PHP").data), ((".lua").data, ("Lua").data),
   ((".dart").data, ("Dart").data), ((".sql").data, ("SQL").data),
   ((".yml").data, ("YAML").data), ((".yaml").data, ("YAML").data),
   ((".toml").data, ("TOML").data), ((".ini").data, ("INI").data),
   ((".cfg").data, ("Config").data), ((".conf").data, ("Config").data),
   ((".env").data, ("Config").data),
   ((".mak").data, ("Makefile").data), ((".mk").data, ("Makefile").data)]

/-- The sentinel language label. -/
def unknownLang : List Char := ("Unknown").data

/-- `language_for_extension`: `mapping.get(ext, 'Unknown')`. -/
def language_for_extension (ext : List Char) : List Char :=
  match (language_map.lookup (lowerChars ext)) with
  | some l => l
  | none => unknownLang

/-- Index of the last `.` in a file name, if any. -/
def rfindDot : List Char → Option Nat
  | [] => none
  | c :: t =>
    match rfindDot t with
    | some i => some (i + 1)
    | none => if c = '.' then some 0 else none

/-- `pathlib.PurePath.suffix`: the part from the last dot, empty when the
dot is the first character or the last one. -/
def pathSuffix (name : List Char) : List Char :=
  match rfindDot name with
  | none => []
  | some i => if 0 < i ∧ i + 1 < name.length then name.drop i else []

/-- A file visited by the walker: its name and the raw bytes obtained from
it, with `none` standing for an `OSError` while opening or reading.  With
`errors="ignore"` decoding is total, so a read failure is the only error. -/
structure FileEntry where
  name : List Char
  bytes : Option (List Nat)

/-- The `path.open(..., errors="ignore")` + `read()` step: an OS error or
the leniently decoded text.  The lenient decoder never fails, which is what
makes `UnicodeDecodeError` unreachable; it is kept abstract as a total
function from bytes to text. -/
def readText (decode : List Nat → List Char) (f : FileEntry) :
    Option (List Char) :=
  f.bytes.map decode

/-- `count_loc_eloc_for_file`: comment syntax from the lowercased suffix,
then the classifier core; `(0, 0)` on the `except (UnicodeDecodeError,
OSError)` branch. -/
def count_loc_eloc_for_file (decode : List Nat → List Char)
    (f : FileEntry) : Nat × Nat :=
  let cs := comment_syntax_for_extension (lowerChars (pathSuffix f.name))
  match readText decode f with
  | none => (0, 0)
  | some text => count_loc_eloc cs.1 cs.2 text

/-- The claimed classifier-state invariant: the pending end token is a
non-empty `some` exactly when the in-block flag is set. -/
def StInv (st : ScanState) : Prop :=
  (st.in_block = true → ∃ e, st.current_end = some e ∧ e ≠ []) ∧
  (st.in_block = false → st.current_end = none)

/-- `str.strip()`. -/
def pyStrip (l : List Char) : List Char :=
  ((l.dropWhile pyWs).reverse.dropWhile pyWs).reverse

/-- The body of `load_excluded_extensions`' loop on one raw line. -/
def excludeStep (exts : List (List Char)) (raw : List Char) :
    List (List Char) :=
  let line := pyStrip raw
  if line = [] || line.take 1 = [('#')] then exts
  else
    let line' := if line.take 1 = [('.')] then line else '.' :: line
    let e := lowerChars line'
    if e ∈ exts then exts else exts ++ [e]

/-- `load_excluded_extensions` on the file's text (`none` models
`FileNotFoundError`, silently ignored).  Iterating the open file yields the
logical lines; each is stripped, blank and `#` lines are skipped, a leading
`.` is added when absent and the lowercased entry joins the set (modelled
as a list without duplicates, in insertion order). -/
def load_excluded_extensions (content : Option (List Char)) :
    List (List Char) :=
  match content with
  | none => []
  | some text => (splitlines text).foldl excludeStep []

/-- The aggregate built by `walk_and_count`: totals, the result list, the
printed per-file lines (by file name), and the per-language accumulators
(insertion-ordered association lists, like Python dicts). -/
structure Agg where
  total_eloc : Nat
  total_loc : Nat
  total_files : Nat
  results : List (List Char × Nat × Nat)
  printed : List (List Char)
  lang_totals : List (List Char × Nat × Nat × Nat)
  lang_files : List (List Char × List (List Char × Nat × Nat))
deriving Repr

/-- `lang_totals.setdefault(lang, [0,0,0])` followed by the three
increments. -/
def updateLangTotals :
    List (List Char × Nat × Nat × Nat) → List Char → Nat → Nat →
      List (List Char × Nat × Nat × Nat)
  | [], lang, e, l => [(lang, 1, e, l)]
  | (k, f, es, ls) :: rest, lang, e, l =>
    if k = lang then (k, f + 1, es + e, ls + l) :: rest
    else (k, f, es, ls) :: updateLangTotals rest lang e l

/-- `lang_files.setdefault(lang, []).append(entry)`. -/
def updateLangFiles :
    List (List Char × List (List Char × Nat × Nat)) → List Char →
      (List Char × Nat × Nat) →
      List (List Char × List (List Char × Nat × Nat))
  | [], lang, e => [(lang, [e])]
  | (k, fs) :: rest, lang, e =>
    if k = lang then (k, fs ++ [e]) :: rest
    else (k, fs) :: updateLangFiles rest lang e

/-- The per-file body of `walk_and_count`'s loop: exclusion check on the
lowercased suffix, classification, the `loc == 0` skip, then every
aggregate and the printed line. -/
def walkStep (decode : List Nat → List Char) (excluded : List (List Char))
    (agg : Agg) (f : FileEntry) : Agg :=
  let ext := lowerChars (pathSuffix f.name)
  if ext ∈ excluded then agg
  else
    let r := count_loc_eloc_for_file decode f
    if r.2 = 0 then agg
    else
      let lang := language_for_extension ext
      { total_eloc := agg.total_eloc + r.1
        total_loc := agg.total_loc + r.2
        total_files := agg.total_files + 1
        results := agg.results ++ [(f.name, r.1, r.2)]
        printed := agg.printed ++ [f.name]
        lang_totals := updateLangTotals agg.lang_totals lang r.1 r.2
        lang_files := updateLangFiles agg.lang_files lang (f.name, r.1, r.2) }

/-- Folding the walker body over the visited files. -/
def walkFiles (decode : List Nat → List Char) (excluded : List (List Char))
    (files : List FileEntry) : Agg :=
  files.foldl (walkStep decode excluded)
    ⟨0, 0, 0, [], [], [], []⟩

/-- One row of the languages summary: `(lang, vals[0], vals[1], vals[2])`,
i.e. name, file count, eLOC sum, LOC sum. -/
abbrev LangEntry : Type := List Char × Nat × Nat × Nat

/-- Python string `<=` via code points. -/
def strLe : List Char → List Char → Bool
  | [], _ => true
  | _ :: _, [] => false
  | a :: as, b :: bs =>
    if a.toNat < b.toNat then true
    else if b.toNat < a.toNat then false
    else strLe as bs

/-- One lexicographic level of the ascending sort-key comparison. -/
def lexStep (x y : Nat) (rest : Bool) : Bool :=
  if x < y then true else if y < x then false else rest

/-- The first sort-key component: `1 if lang == 'Unknown' else 0`. -/
def unknownFlag (a : LangEntry) : Nat :=
  if a.1 = unknownLang then 1 else 0

/-- The languages-summary sort key as a relation: `(Unknown-last flag,
-eLOC, -LOC, lang.lower())` compared lexicographically (descending numeric
components appear with their arguments swapped). -/
def langLe (a b : LangEntry) : Bool :=
  lexStep (unknownFlag a) (unknownFlag b)
    (lexStep b.2.2.1 a.2.2.1
      (lexStep b.2.2.2 a.2.2.2
        (strLe (lowerChars a.1) (lowerChars b.1))))

/-- `sorted(..., key=...)` on the language rows: Python's sort is stable,
modelled by a stable insertion sort under the key order. -/
def sortLangs (es : List LangEntry) : List LangEntry :=
  @List.insertionSort LangEntry (fun a b => langLe a b = true)
    (fun a b => Bool.decEq (langLe a b) true) es

/-- The report sections `main` prints after the live tree. -/
inductive ReportSection where
  | summary
  | topByEloc
  | latestTop
  | languagesSummary
  | topInLang (lang : List Char)
deriving DecidableEq, Repr

/-- Which sections `main` emits after the walk, in order: the summary block
is unconditional, the ranked lists need a non-empty result list, the
language sections additionally need language totals, and one per-language
section appears for each of the first `top_lang` non-Unknown languages in
summary order. -/
def reportSections (top_lang : Nat) (results : List (List Char × Nat × Nat))
    (lang_totals : List LangEntry) : List ReportSection :=
  [ReportSection.summary] ++
    (if results.isEmpty then [] else
      [ReportSection.topByEloc, ReportSection.latestTop] ++
        (if lang_totals.isEmpty then [] else
          [ReportSection.languagesSummary] ++
            (((sortLangs lang_totals).filter
                (fun t => t.1 ≠ unknownLang)).take top_lang).map
              (fun t => ReportSection.topInLang t.1)))

theorem processLine_fst_le (p : List (List Char))
    (bp : List (List Char × List Char)) (st : ScanState) (l : List Char) :
    (processLine p bp st l).1 ≤ 1 := by
  unfold processLine
  dsimp only
  split
  · simp
  · split <;> simp

theorem scanLines_fst_le (p : List (List Char))
    (bp : List (List Char × List Char)) :
    ∀ (ls : List (List Char)) (st : ScanState),
      (scanLines p bp st ls).1 ≤ ls.length := by
  intro ls
  induction ls with
  | nil => intro st; simp [scanLines]
  | cons l ls ih =>
    intro st
    have h1 := processLine_fst_le p bp st l
    have h2 := ih (processLine p bp st l).2
    simp only [scanLines, List.length_cons]
    omega

theorem stripAux_nil_pairs (st : ScanState) (h : st.in_block = false)
    (fuel : Nat) (t : List Char) :
    stripAux [] (fuel + 1) st t = (t, st) := by
  simp [stripAux, h, nextBlockStart]

theorem stripLine_nil_pairs (st : ScanState) (h : st.in_block = false)
    (line : List Char) : stripLine [] st line = (line, st) := by
  unfold stripLine
  exact stripAux_nil_pairs st h _ line

theorem isPrefixOf_single (c : Char) (l : List Char) :
    [c].isPrefixOf l = true ↔ l.take 1 = [c] := by
  cases l with
  | nil => simp [List.isPrefixOf]
  | cons b bs =>
    simp [List.isPrefixOf, List.take]
    constructor
    · intro hb; exact hb.symm
    · intro hb; exact hb.symm

/-- C1: for every file content and every comment syntax the classifier
returns `(eloc, loc)` with `0 ≤ eloc ≤ loc` and `loc` the number of
logical lines of the content; the same bound holds for the file-level
wrapper. -/
theorem c1_eloc_between_zero_and_loc :
    ∀ (line_prefixes : List (List Char))
      (pairs : List (List Char × List Char)) (content : List Char),
      0 ≤ (count_loc_eloc line_prefixes pairs content).1 ∧
      (count_loc_eloc line_prefixes pairs content).1 ≤
        (count_loc_eloc line_prefixes pairs content).2 ∧
      (count_loc_eloc line_prefixes pairs content).2 =
        (splitlines content).length ∧
      (∀ (decode : List Nat → List Char) (f : FileEntry),
        (count_loc_eloc_for_file decode f).1 ≤
          (count_loc_eloc_for_file decode f).2) := by
  intro p bp content
  refine ⟨Nat.zero_le _, ?_, rfl, ?_⟩
  · simpa [count_loc_eloc] using
      scanLines_fst_le p bp (splitlines content) initState
  · intro decode f
    unfold count_loc_eloc_for_file
    cases readText decode f with
    | none => simp
    | some text =>
      simpa [count_loc_eloc] using
        scanLines_fst_le _ _ (splitlines text) initState

/-- C2: with line-comment prefix `#` and no block pairs, a line whose first
non-whitespace character is `#` contributes 0 to eLOC, a line with real
code (not starting with `#` after whitespace) contributes 1 even with a
trailing `#` comment, and the six-line scenario content classifies to
`loc = 6`, `eloc = 2`. -/
theorem c2_hash_line_comments :
    (∀ line : List Char,
        (line.dropWhile pyWs).take 1 = [('#')] →
        (processLine [[('#')]] [] initState line).1 = 0) ∧
    (∀ line : List Char,
        line.any (fun c => !pyWs c) = true →
        (line.dropWhile pyWs).take 1 ≠ [('#')] →
        (processLine [[('#')]] [] initState line).1 = 1) ∧
    count_loc_eloc [[('#')]] []
        (("# a comment line\n\nx = 1\nx = 2  # inline comment\n\n# another comment").data)
      = (2, 6) := by
  refine ⟨?_, ?_, by decide⟩
  · intro line hline
    unfold processLine
    rw [stripLine_nil_pairs initState rfl]
    cases hall : line.all pyWs with
    | true => simp [hall]
    | false =>
      have hpre : [('#')].isPrefixOf (line.dropWhile pyWs) = true :=
        (isPrefixOf_single '#' _).mpr hline
      simp [hall, hpre]
  · intro line hany hne
    unfold processLine
    rw [stripLine_nil_pairs initState rfl]
    have hall : line.all pyWs = false := by
      rcases List.any_eq_true.mp hany with ⟨c, hc, hpc⟩
      cases h : line.all pyWs with
      | false => rfl
      | true =>
        have := List.all_eq_true.mp h c hc
        simp [this] at hpc
    have hpre : [('#')].isPrefixOf (line.dropWhile pyWs) = false := by
      cases h : [('#')].isPrefixOf (line.dropWhile pyWs) with
      | false => rfl
      | true => exact absurd ((isPrefixOf_single '#' _).mp h) hne
    simp [hall, hpre]

theorem c2_hash_line_comments_witness :
    (processLine [[('#')]] [] initState (("# only comment").data)).1 = 0 ∧
    (processLine [[('#')]] [] initState (("x = 1  # trailing").data)).1 = 1 :=
  ⟨c2_hash_line_comments.1 (("# only comment").data) (by decide),
   c2_hash_line_comments.2.1 (("x = 1  # trailing").data) (by decide)
     (by decide)⟩

theorem stripAux_stuck (bp : List (List Char × List Char)) (ce : List Char)
    (fuel : Nat) (t : List Char) (h : findIn ce t = none) :
    stripAux bp (fuel + 1) ⟨true, some ce⟩ t = ([], ⟨true, some ce⟩) := by
  simp [stripAux, h]

/-- C3: once a block comment is open and its end token never appears again,
every remaining line contributes 0 to eLOC and the state stays in the block
comment; a file that is one unclosed block comment has `eloc = 0`. -/
theorem c3_unclosed_block :
    (∀ (line_prefixes : List (List Char))
       (pairs : List (List Char × List Char)) (ce : List Char)
       (ls : List (List Char)),
        (∀ l ∈ ls, findIn ce l = none) →
        scanLines line_prefixes pairs ⟨true, some ce⟩ ls =
          (0, ⟨true, some ce⟩)) ∧
    count_loc_eloc [(("//").data)] [((("/*").data), (("*/").data))]
        (("/* opened on line one\nstill inside\nnever closed").data) =
      (0, 3) := by
  refine ⟨?_, by decide⟩
  intro p bp ce ls h
  induction ls with
  | nil => simp [scanLines]
  | cons l ls ih =>
    have hl : findIn ce l = none := h l (List.mem_cons_self l ls)
    have hrest : ∀ x ∈ ls, findIn ce x = none := fun x hx =>
      h x (List.mem_cons_of_mem l hx)
    have hproc : processLine p bp ⟨true, some ce⟩ l = (0, ⟨true, some ce⟩) := by
      unfold processLine stripLine
      rw [stripAux_stuck bp ce _ l hl]
      simp
    simp only [scanLines, hproc, ih hrest]

theorem c3_unclosed_block_witness :
    scanLines [(("//").data)] [((("/*").data), (("*/").data))]
        ⟨true, some (("*/").data)⟩
        [(("still inside").data), (("never closed").data)] =
      (0, ⟨true, some (("*/").data)⟩) :=
  c3_unclosed_block.1 _ _ _ _ (by decide)

theorem nextBlockStart_mem :
    ∀ (pairs : List (List Char × List Char)) (t : List Char) (i : Nat)
      (s e : List Char),
      nextBlockStart t pairs = some (i, s, e) → (s, e) ∈ pairs := by
  intro pairs
  induction pairs with
  | nil => intro t i s e h; simp [nextBlockStart] at h
  | cons p rest ih =>
    intro t i s e h
    obtain ⟨ps, pe⟩ := p
    simp only [nextBlockStart] at h
    cases hf : findIn ps t with
    | none =>
      rw [hf] at h
      exact List.mem_cons_of_mem _ (ih t i s e h)
    | some j =>
      rw [hf] at h
      cases hn : nextBlockStart t rest with
      | none =>
        rw [hn] at h
        simp at h
        obtain ⟨_, hs, he⟩ := h
        simp [hs, he]
      | some q =>
        obtain ⟨k, qs, qe⟩ := q
        rw [hn] at h
        dsimp only at h
        by_cases hjk : j ≤ k
        · rw [if_pos hjk] at h
          simp at h
          obtain ⟨_, hs, he⟩ := h
          simp [hs, he]
        · rw [if_neg hjk] at h
          simp at h
          obtain ⟨hk, hs, he⟩ := h
          have : (qs, qe) ∈ rest := ih t k qs qe hn
          rw [hs, he] at this
          exact List.mem_cons_of_mem _ this

theorem stripAux_inv (pairs : List (List Char × List Char))
    (hne : ∀ p ∈ pairs, p.2 ≠ []) :
    ∀ (fuel : Nat) (st : ScanState) (t : List Char),
      StInv st → StInv (stripAux pairs fuel st t).2 := by
  intro fuel
  induction fuel with
  | zero => intro st t h; simpa [stripAux] using h
  | succ n ih =>
    intro st t h
    simp only [stripAux]
    split
    · split
      · exact h
      · split
        · exact h
        · exact ih _ _ ⟨fun hh => absurd hh (by decide), fun _ => rfl⟩
    · split
      · exact h
      · rename_i hnb idx stok etok heq
        refine ih ⟨true, some etok⟩ _ ?_
        refine ⟨fun _ => ⟨etok, rfl, ?_⟩, fun hh => Bool.noConfusion hh⟩
        exact hne (stok, etok) (nextBlockStart_mem pairs t idx stok etok heq)

theorem processLine_inv (line_prefixes : List (List Char))
    (pairs : List (List Char × List Char)) (hne : ∀ p ∈ pairs, p.2 ≠ [])
    (st : ScanState) (line : List Char) (h : StInv st) :
    StInv (processLine line_prefixes pairs st line).2 := by
  have base : StInv (stripLine pairs st line).2 :=
    stripAux_inv pairs hne _ st line h
  unfold processLine
  dsimp only
  split
  · exact base
  · split
    · exact base
    · exact base

theorem scanLines_inv (line_prefixes : List (List Char))
    (pairs : List (List Char × List Char)) (hne : ∀ p ∈ pairs, p.2 ≠ []) :
    ∀ (ls : List (List Char)) (st : ScanState),
      StInv st → StInv (scanLines line_prefixes pairs st ls).2 := by
  intro ls
  induction ls with
  | nil => intro st h; simpa [scanLines] using h
  | cons l ls ih =>
    intro st h
    simp only [scanLines]
    exact ih _ (processLine_inv line_prefixes pairs hne st l h)

/-- C4: the pending end token is non-empty/`some` exactly when the in-block
flag is true: the invariant holds for the reset state, is preserved by each
line of the scan (for any syntax whose block-end tokens are non-empty, as
all of the table's are), and the per-file counter always starts the scan
from the reset state, so no block-comment state crosses files. -/
theorem c4_state_invariant :
    (initState.in_block = false ∧ initState.current_end = none ∧
      StInv initState) ∧
    (∀ (pairs : List (List Char × List Char))
       (line_prefixes : List (List Char)) (st : ScanState)
       (line : List Char),
        (∀ p ∈ pairs, p.2 ≠ []) → StInv st →
        StInv (processLine line_prefixes pairs st line).2) ∧
    (∀ (pairs : List (List Char × List Char))
       (line_prefixes : List (List Char)) (st : ScanState)
       (ls : List (List Char)),
        (∀ p ∈ pairs, p.2 ≠ []) → StInv st →
        StInv (scanLines line_prefixes pairs st ls).2) ∧
    (∀ (line_prefixes : List (List Char))
       (pairs : List (List Char × List Char)) (content : List Char),
        count_loc_eloc line_prefixes pairs content =
          ((scanLines line_prefixes pairs initState (splitlines content)).1,
            (splitlines content).length)) := by
  refine ⟨⟨rfl, rfl, ⟨fun h => absurd h (by decide), fun _ => rfl⟩⟩,
    ?_, ?_, fun _ _ _ => rfl⟩
  · intro pairs p st line hne h
    exact processLine_inv p pairs hne st line h
  · intro pairs p st ls hne h
    exact scanLines_inv p pairs hne ls st h

theorem c4_state_invariant_witness :
    StInv (processLine [(("//").data)] [((("/*").data), (("*/").data))]
      initState (("int x; /* open").data)).2 :=
  c4_state_invariant.2.1 _ _ _ _ (by decide)
    ⟨fun h => absurd h (by decide), fun _ => rfl⟩

theorem any_not_eq_not_all (l : List Char) (p : Char → Bool) :
    l.any (fun c => !p c) = !l.all p := by
  induction l with
  | nil => rfl
  | cons c t ih => simp [List.any_cons, List.all_cons, ih, Bool.not_and]

theorem scanLines_no_comment_rules :
    ∀ (ls : List (List Char)) (st : ScanState), st.in_block = false →
      scanLines [] [] st ls = (ls.countP (fun l => !l.all pyWs), st) := by
  intro ls
  induction ls with
  | nil => intro st h; simp [scanLines, List.countP_nil]
  | cons l ls ih =>
    intro st h
    have hproc : processLine [] [] st l =
        ((if l.all pyWs then 0 else 1), st) := by
      unfold processLine
      rw [stripLine_nil_pairs st h]
      dsimp only
      cases hall : l.all pyWs <;> simp [hall]
    simp only [scanLines, hproc]
    cases hall : l.all pyWs with
    | true =>
      rw [hall] at hproc
      simp only [scanLines, hproc, ih st h, List.countP_cons, hall]
      simp
    | false =>
      rw [hall] at hproc
      simp only [scanLines, hproc, ih st h, List.countP_cons, hall]
      simp [Nat.add_comm]

/-- C5: for an extension with no configured comment syntax (any unknown
extension) the classifier returns `loc` = number of logical lines and
`eloc` = number of lines containing a non-whitespace character. -/
theorem c5_unknown_extension :
    ∀ ext : List Char, comment_syntax_for_extension ext = ([], []) →
      ∀ content : List Char,
        count_loc_eloc (comment_syntax_for_extension ext).1
            (comment_syntax_for_extension ext).2 content =
          ((splitlines content).countP (fun l => l.any (fun c => !pyWs c)),
            (splitlines content).length) := by
  intro ext h content
  rw [h]
  show count_loc_eloc [] [] content = _
  simp only [count_loc_eloc]
  rw [scanLines_no_comment_rules (splitlines content) initState rfl]
  simp only [any_not_eq_not_all]

theorem c5_unknown_extension_witness :
    count_loc_eloc (comment_syntax_for_extension ((".qq").data)).1
        (comment_syntax_for_extension ((".qq").data)).2
        (("first line\n\n  \n# not a comment here\n").data) =
      ((splitlines (("first line\n\n  \n# not a comment here\n").data)).countP
          (fun l => l.any (fun c => !pyWs c)),
        (splitlines (("first line\n\n  \n# not a comment here\n").data)).length) :=
  c5_unknown_extension ((".qq").data) (by decide) _

/-- C6: a file whose open/read fails is classified `(eloc = 0, loc = 0)`
(without raising) and the walker's per-file step leaves every aggregate —
file count, totals, result list, printed output, per-language accumulators
— exactly unchanged, because `loc == 0`. -/
theorem c6_read_failure_dropped :
    (∀ (decode : List Nat → List Char) (f : FileEntry), f.bytes = none →
        count_loc_eloc_for_file decode f = (0, 0)) ∧
    (∀ (decode : List Nat → List Char) (excluded : List (List Char))
       (agg : Agg) (f : FileEntry), f.bytes = none →
        walkStep decode excluded agg f = agg) := by
  have hcount : ∀ (decode : List Nat → List Char) (f : FileEntry),
      f.bytes = none → count_loc_eloc_for_file decode f = (0, 0) := by
    intro d f h
    unfold count_loc_eloc_for_file readText
    rw [h]
    rfl
  refine ⟨hcount, ?_⟩
  intro d ex agg f h
  unfold walkStep
  dsimp only
  split
  · rfl
  · rw [hcount d f h]
    rfl

theorem c6_read_failure_dropped_witness :
    count_loc_eloc_for_file (fun _ => []) ⟨(("x.py").data), none⟩ = (0, 0) ∧
    walkStep (fun _ => []) [] ⟨0, 0, 0, [], [], [], []⟩
        ⟨(("x.py").data), none⟩ = ⟨0, 0, 0, [], [], [], []⟩ :=
  ⟨c6_read_failure_dropped.1 _ _ rfl, c6_read_failure_dropped.2 _ _ _ _ rfl⟩

theorem toLower_toLower (c : Char) :
    Char.toLower (Char.toLower c) = Char.toLower c := by
  have key : ∀ n : Nat, 65 ≤ n → n ≤ 90 →
      (Char.ofNat (n + 32)).toNat = n + 32 := by
    intro n h1 h2
    interval_cases n <;> decide
  by_cases h : c.toNat ≥ 65 ∧ c.toNat ≤ 90
  · have h1 : Char.toLower c = Char.ofNat (c.toNat + 32) := by
      simp only [Char.toLower]
      rw [if_pos h]
    have hcon : ¬((Char.ofNat (c.toNat + 32)).toNat ≥ 65 ∧
        (Char.ofNat (c.toNat + 32)).toNat ≤ 90) := by
      rw [key c.toNat h.1 h.2]
      omega
    rw [h1]
    simp only [Char.toLower]
    rw [if_neg hcon]
  · have h1 : Char.toLower c = c := by
      simp only [Char.toLower]
      rw [if_neg h]
    rw [h1, h1]

theorem lowerChars_idem (l : List Char) :
    lowerChars (lowerChars l) = lowerChars l := by
  induction l with
  | nil => rfl
  | cons c t ih =>
    simp only [lowerChars, List.map_cons] at ih ⊢
    rw [toLower_toLower]
    exact congrArg _ ih

theorem lowerChars_dotted_take (line : List Char) :
    (lowerChars (if line.take 1 = [('.')] then line else '.' :: line)).take 1
      = [('.')] := by
  by_cases h : line.take 1 = [('.')]
  · rw [if_pos h]
    unfold lowerChars
    rw [← List.map_take, h]
    rfl
  · rw [if_neg h]
    rfl

theorem excludeStep_inv (acc : List (List Char)) (raw : List Char)
    (h : acc.Nodup ∧ ∀ e ∈ acc, e.take 1 = [('.')] ∧ lowerChars e = e) :
    (excludeStep acc raw).Nodup ∧
      ∀ e ∈ excludeStep acc raw, e.take 1 = [('.')] ∧ lowerChars e = e := by
  unfold excludeStep
  dsimp only
  split
  · exact h
  · by_cases hmem :
      lowerChars (if (pyStrip raw).take 1 = [('.')] then pyStrip raw
        else '.' :: pyStrip raw) ∈ acc
    · rw [if_pos hmem]
      exact h
    · rw [if_neg hmem]
      constructor
      · simp [List.nodup_append, h.1, hmem]
      · intro e' he'
        rcases List.mem_append.mp he' with hold | hself
        · exact h.2 e' hold
        · have he : e' =
              lowerChars (if (pyStrip raw).take 1 = [('.')] then pyStrip raw
                else '.' :: pyStrip raw) := by
            simpa using hself
          subst he
          exact ⟨lowerChars_dotted_take _, lowerChars_idem _⟩

theorem load_foldl_inv (lines : List (List Char)) :
    ∀ acc : List (List Char),
      (acc.Nodup ∧ ∀ e ∈ acc, e.take 1 = [('.')] ∧ lowerChars e = e) →
      (lines.foldl excludeStep acc).Nodup ∧
        ∀ e ∈ lines.foldl excludeStep acc,
          e.take 1 = [('.')] ∧ lowerChars e = e := by
  induction lines with
  | nil => intro acc h; simpa using h
  | cons l ls ih =>
    intro acc h
    simp only [List.foldl_cons]
    exact ih _ (excludeStep_inv acc l h)

/-- C7: exclusion loading skips blank and `#` lines, stores entries
lowercased with a leading `.` added when absent, coalesces duplicates
(no duplicate entries, each entry dot-led and lowercase-fixed), yields
exactly `{.md, .log, .jpg}` on the scenario input, and a missing file
yields the empty set. -/
theorem c7_exclusion_loading :
    load_excluded_extensions
        (some (("\n# comment\nmd\n.log\n\n# mixed case\nJPG\n").data)) =
      [((".md").data), ((".log").data), ((".jpg").data)] ∧
    load_excluded_extensions none = [] ∧
    (∀ (content : Option (List Char)) (e : List Char),
        e ∈ load_excluded_extensions content →
        e.take 1 = [('.')] ∧ lowerChars e = e) ∧
    (∀ content : Option (List Char),
        (load_excluded_extensions content).Nodup) := by
  refine ⟨by decide, rfl, ?_, ?_⟩
  · intro content e he
    cases content with
    | none => simp [load_excluded_extensions] at he
    | some text =>
      have := load_foldl_inv (splitlines text) [] ⟨List.nodup_nil, by simp⟩
      exact this.2 e he
  · intro content
    cases content with
    | none => simp [load_excluded_extensions]
    | some text =>
      exact (load_foldl_inv (splitlines text) [] ⟨List.nodup_nil, by simp⟩).1

theorem c7_exclusion_loading_witness :
    ((".md").data).take 1 = [('.')] ∧
      lowerChars ((".md").data) = ((".md").data) :=
  c7_exclusion_loading.2.2.1
    (some (("\n# comment\nmd\n.log\n\n# mixed case\nJPG\n").data))
    ((".md").data) (by decide)

theorem strLe_total : ∀ x y : List Char, strLe x y = true ∨ strLe y x = true := by
  intro x
  induction x with
  | nil => intro y; left; rfl
  | cons a as ih =>
    intro y
    cases y with
    | nil => right; rfl
    | cons b bs =>
      rcases Nat.lt_trichotomy a.toNat b.toNat with h | h | h
      · left; simp [strLe, h]
      · have h1 : ¬a.toNat < b.toNat := by omega
        have h2 : ¬b.toNat < a.toNat := by omega
        rcases ih bs with hh | hh
        · left; simp [strLe, h1, h2, hh]
        · right; simp [strLe, h1, h2, hh]
      · right; simp [strLe, h]

theorem strLe_trans :
    ∀ x y z : List Char, strLe x y = true → strLe y z = true →
      strLe x z = true := by
  intro x
  induction x with
  | nil => intro y z _ _; rfl
  | cons a as ih =>
    intro y z hxy hyz
    cases y with
    | nil => simp [strLe] at hxy
    | cons b bs =>
      cases z with
      | nil => simp [strLe] at hyz
      | cons c cs =>
        simp only [strLe] at hxy hyz ⊢
        split_ifs at hxy hyz ⊢ <;>
          first
          | rfl
          | (exfalso; omega)
          | simp at hxy
          | simp at hyz
          | exact ih bs cs hxy hyz

theorem lexStep_total (x y : Nat) (r1 r2 : Bool)
    (h : r1 = true ∨ r2 = true) :
    lexStep x y r1 = true ∨ lexStep y x r2 = true := by
  unfold lexStep
  rcases Nat.lt_trichotomy x y with hh | hh | hh
  · left; simp [hh]
  · have h1 : ¬x < y := by omega
    have h2 : ¬y < x := by omega
    simpa [h1, h2] using h
  · right; simp [hh]

theorem lexStep_trans (x y z : Nat) (r1 r2 r3 : Bool)
    (himp : r1 = true → r2 = true → r3 = true)
    (h1 : lexStep x y r1 = true) (h2 : lexStep y z r2 = true) :
    lexStep x z r3 = true := by
  unfold lexStep at h1 h2 ⊢
  split_ifs at h1 h2 ⊢ <;>
    first
    | rfl
    | (exfalso; omega)
    | simp at h1
    | simp at h2
    | exact himp h1 h2

theorem langLe_total : ∀ a b : LangEntry, langLe a b = true ∨ langLe b a = true := by
  intro a b
  unfold langLe
  apply lexStep_total
  apply lexStep_total
  apply lexStep_total
  exact strLe_total _ _

theorem langLe_trans :
    ∀ a b c : LangEntry, langLe a b = true → langLe b c = true →
      langLe a c = true := by
  intro a b c h1 h2
  unfold langLe at h1 h2 ⊢
  refine lexStep_trans _ _ _ _ _ _ ?_ h1 h2
  intro g1 g2
  refine lexStep_trans _ _ _ _ _ _ ?_ g2 g1
  intro k2 k1
  refine lexStep_trans _ _ _ _ _ _ ?_ k2 k1
  intro m2 m1
  exact strLe_trans _ _ _ m1 m2

theorem langLe_unknown (a b : LangEntry) (h : langLe a b = true)
    (ha : a.1 = unknownLang) : b.1 = unknownLang := by
  by_contra hb
  unfold langLe unknownFlag at h
  rw [if_pos ha, if_neg hb] at h
  simp [lexStep] at h

theorem sortLangs_sorted (es : List LangEntry) :
    List.Sorted (fun a b => langLe a b = true) (sortLangs es) := by
  haveI h1 : IsTotal LangEntry (fun a b => langLe a b = true) :=
    ⟨langLe_total⟩
  haveI h2 : IsTrans LangEntry (fun a b => langLe a b = true) :=
    ⟨langLe_trans⟩
  exact @List.sorted_insertionSort LangEntry (fun a b => langLe a b = true)
    (fun a b => Bool.decEq (langLe a b) true) h1 h2 es

/-- C8: in the languages summary the sentinel `Unknown` always sorts last
regardless of its totals, other languages sort by eLOC sum descending, LOC
sum descending, then lowercase name ascending (the list is sorted under
that key relation and is a permutation of the input), and the
JavaScript=3 / Python=2 / Unknown=4 example renders as JavaScript, Python,
Unknown. -/
theorem c8_languages_summary_order :
    sortLangs [((("Python").data), 1, 2, 2), ((("Unknown").data), 1, 4, 4),
        ((("JavaScript").data), 1, 3, 3)] =
      [((("JavaScript").data), 1, 3, 3), ((("Python").data), 1, 2, 2),
        ((("Unknown").data), 1, 4, 4)] ∧
    (∀ es : List LangEntry, List.Perm (sortLangs es) es) ∧
    (∀ es : List LangEntry,
        List.Sorted (fun a b => langLe a b = true) (sortLangs es)) ∧
    (∀ (es l₁ l₂ : List LangEntry) (u v : LangEntry),
        sortLangs es = l₁ ++ u :: l₂ → v ∈ l₂ → u.1 = unknownLang →
        v.1 = unknownLang) := by
  refine ⟨by decide, ?_, sortLangs_sorted, ?_⟩
  · intro es
    exact List.perm_insertionSort _ es
  · intro es l₁ l₂ u v heq hv hu
    have hs := sortLangs_sorted es
    rw [heq] at hs
    have hsub : List.Sorted (fun a b => langLe a b = true) (u :: l₂) :=
      List.Pairwise.sublist (List.sublist_append_right l₁ (u :: l₂)) hs
    exact langLe_unknown u v (List.rel_of_sorted_cons hsub v hv) hu

theorem c8_languages_summary_order_witness :
    ((((("Unknown").data), 1, 3, 3) : LangEntry)).1 = unknownLang :=
  c8_languages_summary_order.2.2.2
    [((("Unknown").data), 1, 5, 5), ((("Unknown").data), 1, 3, 3)] []
    [((("Unknown").data), 1, 3, 3)] ((("Unknown").data), 1, 5, 5)
    ((("Unknown").data), 1, 3, 3) (by decide) (by decide) (by decide)

/-- C9 counterexample: with zero counted files (empty result list, empty
language totals) the summary block is still emitted, so it is not true that
none of the sections appear. -/
theorem c9_zero_files_summary_still_printed :
    ReportSection.summary ∈ reportSections 5 [] [] := by
  decide

/-- C9 (amended): the top-by-eLOC, latest-modified and language sections
are printed only when at least one file was counted, but the summary block
is always printed — with zero counted files the output after the tree is
exactly the summary block. -/
theorem c9_sections_gating :
    ∀ (n : Nat) (results : List (List Char × Nat × Nat))
      (lt : List LangEntry),
      ReportSection.summary ∈ reportSections n results lt ∧
      (results = [] → reportSections n results lt = [ReportSection.summary]) ∧
      (results ≠ [] → ReportSection.topByEloc ∈ reportSections n results lt ∧
        ReportSection.latestTop ∈ reportSections n results lt) ∧
      (ReportSection.languagesSummary ∈ reportSections n results lt ↔
        results ≠ [] ∧ lt ≠ []) := by
  intro n results lt
  refine ⟨by simp [reportSections], fun h => by simp [reportSections, h],
    ?_, ?_⟩
  · intro h
    cases results with
    | nil => exact absurd rfl h
    | cons a rs => constructor <;> simp [reportSections]
  · cases results with
    | nil => simp [reportSections]
    | cons a rs =>
      cases lt with
      | nil => simp [reportSections]
      | cons b ls => simp [reportSections]

theorem c9_sections_gating_witness :
    reportSections 5 [] [] = [ReportSection.summary] ∧
    ReportSection.topByEloc ∈
      reportSections 5 [((("a.py").data), 1, 2)]
        [((("Python").data), 1, 1, 2)] :=
  ⟨(c9_sections_gating 5 [] []).2.1 rfl,
   ((c9_sections_gating 5 [((("a.py").data), 1, 2)]
      [((("Python").data), 1, 1, 2)]).2.2.1 (by decide)).1⟩

theorem count_file_some (decode : List Nat → List Char) (f : FileEntry)
    (bytes : List Nat) (h : f.bytes = some bytes) :
    count_loc_eloc_for_file decode f =
      count_loc_eloc
        (comment_syntax_for_extension (lowerChars (pathSuffix f.name))).1
        (comment_syntax_for_extension (lowerChars (pathSuffix f.name))).2
        (decode bytes) := by
  unfold count_loc_eloc_for_file readText
  rw [h]
  rfl

/-- C10: files are opened with `errors="ignore"`, so decoding is a total
function of the bytes and a decode failure cannot occur: every openable
file is classified from its leniently decoded text (`loc` = that text's
line count), `(0, 0)` arises only from an OS-level read error (or from
decoded text with no lines at all), and an openable file with non-empty
decoded text is counted and aggregated by the walker, not dropped. -/
theorem c10_decode_failures_unreachable :
    (∀ (decode : List Nat → List Char) (f : FileEntry) (bytes : List Nat),
        f.bytes = some bytes →
        count_loc_eloc_for_file decode f =
          count_loc_eloc
            (comment_syntax_for_extension (lowerChars (pathSuffix f.name))).1
            (comment_syntax_for_extension (lowerChars (pathSuffix f.name))).2
            (decode bytes) ∧
        (count_loc_eloc_for_file decode f).2 =
          (splitlines (decode bytes)).length) ∧
    (∀ (decode : List Nat → List Char) (f : FileEntry),
        count_loc_eloc_for_file decode f = (0, 0) →
        f.bytes = none ∨ splitlines (decode (f.bytes.getD [])) = []) ∧
    (∀ (decode : List Nat → List Char) (excluded : List (List Char))
       (agg : Agg) (f : FileEntry) (bytes : List Nat),
        f.bytes = some bytes →
        lowerChars (pathSuffix f.name) ∉ excluded →
        splitlines (decode bytes) ≠ [] →
        (walkStep decode excluded agg f).total_files = agg.total_files + 1 ∧
        (walkStep decode excluded agg f).results =
          agg.results ++ [(f.name, (count_loc_eloc_for_file decode f).1,
            (count_loc_eloc_for_file decode f).2)]) := by
  have hsnd : ∀ (decode : List Nat → List Char) (f : FileEntry)
      (bytes : List Nat), f.bytes = some bytes →
      (count_loc_eloc_for_file decode f).2 =
        (splitlines (decode bytes)).length := by
    intro decode f bytes h
    rw [count_file_some decode f bytes h]
    rfl
  refine ⟨fun decode f bytes h => ⟨count_file_some decode f bytes h,
    hsnd decode f bytes h⟩, ?_, ?_⟩
  · intro decode f h
    cases hb : f.bytes with
    | none => exact Or.inl rfl
    | some bs =>
      refine Or.inr ?_
      have h2 := hsnd decode f bs hb
      rw [h] at h2
      show splitlines (decode bs) = []
      exact List.length_eq_zero.mp h2.symm
  · intro decode excluded agg f bytes hb hexcl hne
    have hloc : (count_loc_eloc_for_file decode f).2 ≠ 0 := by
      rw [hsnd decode f bytes hb]
      intro hz
      exact hne (List.length_eq_zero.mp hz)
    unfold walkStep
    dsimp only
    rw [if_neg hexcl, if_neg hloc]
    exact ⟨rfl, rfl⟩

theorem c10_decode_failures_unreachable_witness :
    count_loc_eloc_for_file (fun _ => (("x").data))
        ⟨(("b.bin").data), some [0]⟩ =
      count_loc_eloc
        (comment_syntax_for_extension
          (lowerChars (pathSuffix (("b.bin").data)))).1
        (comment_syntax_for_extension
          (lowerChars (pathSuffix (("b.bin").data)))).2
        ((fun _ => (("x").data)) [0]) ∧
    (walkStep (fun _ => (("x").data)) [] ⟨0, 0, 0, [], [], [], []⟩
        ⟨(("b.bin").data), some [0]⟩).total_files = 0 + 1 :=
  ⟨(c10_decode_failures_unreachable.1 (fun _ => (("x").data))
      ⟨(("b.bin").data), some [0]⟩ [0] rfl).1,
   (c10_decode_failures_unreachable.2.2 (fun _ => (("x").data)) []
      ⟨0, 0, 0, [], [], [], []⟩ ⟨(("b.bin").data), some [0]⟩ [0] rfl
      (by decide) (by decide)).1⟩

end ElocMetrix
